/-
Verification of the AuctionIO scheduler core (src/AuctionIO-object.py).

Shallow embedding of the decision logic: the coefficient formula, client
insertion, the per-tick refresh / selection / host-assignment / consumption
step of `AuctionIO.update`, and the host search.  Randomness (the calls to
`random.randint`) is passed in as explicit parameters; tkinter rendering is
dropped; the worker thread's immediate `status_list[i][2] = True` write is
folded into the dispatching tick (the race on that flag is outside this
embedding).  Python ints are modelled as ℤ, Python floats as ℝ, and the
exception behaviour of `1 / c` and `math.log` as an `Except` result.
-/
import Mathlib

namespace Auction

/-! ### Python list primitives used by `update`

`max(xs)` scans left to right and replaces the candidate only on a strictly
greater element, so it returns the first maximal element; `xs.index(v)`
returns the first position equal to `v`. -/

/-- Python `max` on the non-empty list `x :: xs`. -/
def py_max [LinearOrder α] (x : α) : List α → α
  | [] => x
  | y :: ys => py_max (if x < y then y else x) ys

/-- Python `l.index(v)`: the first position whose element equals `v`
(callers guarantee membership). -/
def py_index [DecidableEq α] (v : α) : List α → ℕ
  | [] => 0
  | y :: ys => if y = v then 0 else py_index v ys + 1

/-- The index chosen by `[coeffs].index(max([coeffs]))` in
`AuctionIO.update`: the first position of the maximum value. -/
def select_idx [LinearOrder α] [DecidableEq α] : List α → ℕ
  | [] => 0
  | x :: xs => py_index (py_max x xs) (x :: xs)

/-- The host search of `AuctionIO.update`: scan `status_list` in ascending
index order, return the first entry whose busy flag is `False`. -/
def find_idle : List Bool → Option ℕ
  | [] => none
  | b :: rest => if b then (find_idle rest).map (· + 1) else some 0

/-! ### The coefficient formula (`PriorityEngine`)

Python computes `((1 / c) * t) + math.log(v / c, 1/2)` with
`math.log(x, b) = log x / log b`. -/

/-- The coefficient value `(1/c)*t + log_{1/2}(v/c)` as a real number. -/
noncomputable def coefficient (t v c : ℤ) : ℝ :=
  (1 / (c : ℝ)) * t + Real.log ((v : ℝ) / (c : ℝ)) / Real.log (1 / 2)

/-- The same expression with Python's exception semantics: `1 / c` raises
`ZeroDivisionError` when `c = 0`, and `math.log` raises `ValueError` when its
argument `v / c` is not strictly positive.  For `c ≠ 0` the real ratio
`v / c` is `≤ 0` exactly when `v * c ≤ 0`. -/
noncomputable def compute_checked (t v c : ℤ) : Except String ℝ :=
  if c = 0 then .error "ZeroDivisionError"
  else if v * c ≤ 0 then .error "ValueError: math domain error"
  else .ok (coefficient t v c)

/-! ### Data model and state -/

/-- One entry of `clients_list`: `[id, files, time, coefficient]`. -/
structure Client where
  id : ℤ
  files : List ℤ
  time : ℤ
  coeff : ℝ

instance : Inhabited Client := ⟨⟨0, [], 0, 0⟩⟩

/-- The scheduler state: the attributes of the `AuctionIO` object that the
decision logic reads and writes.  `status_list` keeps only the busy flag of
each of the five progress bars (hosts). -/
structure AuctionState where
  num_clients : ℤ
  next_id : ℤ
  clock_tick : ℤ
  clients_list : List Client
  status_list : List Bool

/-- The state after `__init__`. -/
def init_state : AuctionState :=
  { num_clients := 0
    next_id := 1
    clock_tick := 1000
    clients_list := []
    status_list := [false, false, false, false, false] }

/-- The file sizes drawn by `[random.randint(1, 1000) for _ in range(1, n)]`
where `n` is the result of `random.randint(2, 11)`: the comprehension runs
`n - 1` times and `size_draw k` is the value of its `k`-th call. -/
def draw_files (n : ℕ) (size_draw : ℕ → ℤ) : List ℤ :=
  (List.range (n - 1)).map size_draw

/-- The insertion `AuctionIO.insert_new_client`, with the random draws as
parameters:
increment `num_clients`, draw and sort the file list, compute the initial
coefficient with `t = 0` and the already incremented `num_clients`, append
the client, increment `id`. -/
noncomputable def insert_new_client (s : AuctionState) (n : ℕ)
    (size_draw : ℕ → ℤ) : AuctionState :=
  let nc := s.num_clients + 1
  let files := (draw_files n size_draw).mergeSort (· ≤ ·)
  let coeff := coefficient 0 files.headI nc
  { s with
    num_clients := nc
    clients_list := s.clients_list ++ [⟨s.next_id, files, 0, coeff⟩]
    next_id := s.next_id + 1 }

/-- The per-client body of the refresh loop in `AuctionIO.update`:
`new_time = time + 1`, new coefficient from `new_time`, `files[0]` and the
shared `num_clients` value `c`. -/
noncomputable def refresh (c : ℤ) (cl : Client) : Client :=
  { cl with time := cl.time + 1, coeff := coefficient (cl.time + 1) cl.files.headI c }

/-- The whole refresh loop: every client is refreshed against the same
`num_clients`. -/
noncomputable def refresh_all (s : AuctionState) : List Client :=
  s.clients_list.map (refresh s.num_clients)

/-- The consumption `del clients_list[i][1][0]`: drop one client's first file. -/
def consume_first (cl : Client) : Client :=
  { cl with files := cl.files.tail }

/-- The index chosen by
`[float(i[3]) for i in clients_list].index(max([float(i[3]) ...]))`
on the refreshed client list. -/
noncomputable def sel_idx_of (s : AuctionState) : ℕ :=
  select_idx ((refresh_all s).map Client.coeff)

/-- The selection step of `AuctionIO.update`: `max_coefficient` stays `0`
(falsy) when `clients_list` is empty, and otherwise is the client at the
first index of the maximal coefficient. -/
noncomputable def select_max (l : List Client) : Option Client :=
  if l.isEmpty then none
  else some (l.getD (select_idx (l.map Client.coeff)) default)

/-- The refreshed client list after `del clients_list[i][1][0]` removed the
selected client's first file (`i` is the selected client's own position,
which is what `clients_list.index(max_coefficient)` returns, the ids being
unique). -/
noncomputable def consumed_list (s : AuctionState) : List Client :=
  (refresh_all s).set (sel_idx_of s)
    (consume_first ((refresh_all s).getD (sel_idx_of s) default))

/-- One call of `AuctionIO.update`, minus rendering: refresh all clients,
pick the first index of the maximal coefficient, and if a host with busy
flag `False` exists, dispatch to the first such host, delete the selected
client's first file, and delete the client itself when its file list became
empty.  Returns the new state and the dispatch performed (host index and
client id), `none` when the queue is empty or no host is idle.  The busy
flag write performed immediately by the spawned worker is folded into the
tick. -/
noncomputable def update_tick (s : AuctionState) : AuctionState × Option (ℕ × ℤ) :=
  if (refresh_all s).isEmpty then ({ s with clients_list := refresh_all s }, none)
  else
    match find_idle s.status_list with
    | none => ({ s with clients_list := refresh_all s }, none)
    | some hi =>
      if ((consumed_list s).getD (sel_idx_of s) default).files.isEmpty then
        ({ s with
            clients_list := (consumed_list s).eraseIdx (sel_idx_of s)
            num_clients := s.num_clients - 1
            status_list := s.status_list.set hi true },
          some (hi, ((refresh_all s).getD (sel_idx_of s) default).id))
      else
        ({ s with
            clients_list := consumed_list s
            status_list := s.status_list.set hi true },
          some (hi, ((refresh_all s).getD (sel_idx_of s) default).id))

/-! ### Properties of the Python list primitives -/

theorem py_max_mem [LinearOrder α] (xs : List α) (x : α) : py_max x xs ∈ x :: xs := by
  induction xs generalizing x with
  | nil => simp [py_max]
  | cons y ys ih =>
    have h := ih (if x < y then y else x)
    rw [py_max]
    rcases List.mem_cons.mp h with h1 | h1
    · rw [h1]; split <;> simp
    · simp [h1]

theorem self_le_py_max [LinearOrder α] (xs : List α) (x : α) : x ≤ py_max x xs := by
  induction xs generalizing x with
  | nil => simp [py_max]
  | cons y ys ih =>
    rw [py_max]
    refine le_trans ?_ (ih _)
    split
    · exact le_of_lt (by assumption)
    · exact le_refl x

theorem le_py_max [LinearOrder α] (xs : List α) (x z : α) (hz : z ∈ x :: xs) :
    z ≤ py_max x xs := by
  induction xs generalizing x with
  | nil =>
    simp only [List.mem_singleton] at hz
    simp [py_max, hz, le_refl]
  | cons y ys ih =>
    rw [py_max]
    rcases List.mem_cons.mp hz with h1 | h1
    · refine le_trans ?_ (self_le_py_max ys _)
      rw [h1]
      split
      · exact le_of_lt (by assumption)
      · exact le_refl _
    · rcases List.mem_cons.mp h1 with h2 | h2
      · refine le_trans ?_ (self_le_py_max ys _)
        rw [h2]
        split
        · exact le_refl _
        · exact le_of_not_lt (by assumption)
      · exact ih _ (List.mem_cons_of_mem _ h2)

theorem getD_mem_of_lt (l : List α) (j : ℕ) (hj : j < l.length) (d : α) :
    l.getD j d ∈ l := by
  rw [List.getD_eq_getElem?_getD, List.getElem?_eq_getElem hj]
  exact List.getElem_mem hj

theorem py_index_lt_length [DecidableEq α] (v : α) (l : List α) (hv : v ∈ l) :
    py_index v l < l.length := by
  induction l with
  | nil => simp at hv
  | cons y ys ih =>
    rw [py_index]
    split
    · simp
    · rename_i h
      rcases List.mem_cons.mp hv with h1 | h1
      · exact absurd h1.symm h
      · simpa using Nat.succ_lt_succ (ih h1)

theorem getD_py_index [DecidableEq α] (v : α) (l : List α) (hv : v ∈ l) (d : α) :
    l.getD (py_index v l) d = v := by
  induction l with
  | nil => simp at hv
  | cons y ys ih =>
    rw [py_index]
    split
    · rename_i h; simpa using h
    · rename_i h
      rcases List.mem_cons.mp hv with h1 | h1
      · exact absurd h1.symm h
      · simpa using ih h1

theorem getD_ne_of_lt_py_index [DecidableEq α] (v : α) (l : List α) (j : ℕ)
    (hj : j < py_index v l) (d : α) : l.getD j d ≠ v := by
  induction l generalizing j with
  | nil => simp [py_index] at hj
  | cons y ys ih =>
    rw [py_index] at hj
    split at hj
    · omega
    · rename_i h
      cases j with
      | zero => simpa using h
      | succ j => simpa using ih j (by omega)

theorem select_idx_lt_length [LinearOrder α] [DecidableEq α] (l : List α)
    (hl : l ≠ []) : select_idx l < l.length := by
  cases l with
  | nil => exact absurd rfl hl
  | cons x xs => exact py_index_lt_length _ _ (py_max_mem xs x)

theorem getD_le_getD_select_idx [LinearOrder α] [DecidableEq α] (l : List α)
    (j : ℕ) (hj : j < l.length) (d : α) :
    l.getD j d ≤ l.getD (select_idx l) d := by
  cases l with
  | nil => simp at hj
  | cons x xs =>
    rw [show select_idx (x :: xs) = py_index (py_max x xs) (x :: xs) from rfl,
      getD_py_index _ _ (py_max_mem xs x)]
    exact le_py_max xs x _ (getD_mem_of_lt _ _ hj d)

theorem select_idx_le_of_getD_eq [LinearOrder α] [DecidableEq α] (l : List α)
    (j : ℕ) (hj : j < l.length) (d : α)
    (h : l.getD j d = l.getD (select_idx l) d) : select_idx l ≤ j := by
  cases l with
  | nil => simp at hj
  | cons x xs =>
    by_contra hlt
    push_neg at hlt
    rw [show select_idx (x :: xs) = py_index (py_max x xs) (x :: xs) from rfl] at h hlt
    rw [getD_py_index _ _ (py_max_mem xs x)] at h
    exact getD_ne_of_lt_py_index _ _ j hlt d h

theorem find_idle_spec (status : List Bool) (hi : ℕ)
    (h : find_idle status = some hi) :
    hi < status.length ∧ status.getD hi true = false ∧
      ∀ j < hi, status.getD j false = true := by
  induction status generalizing hi with
  | nil => simp [find_idle] at h
  | cons b rest ih =>
    rw [find_idle] at h
    split at h
    · rename_i hb
      cases hfi : find_idle rest with
      | none => rw [hfi] at h; simp at h
      | some k =>
        rw [hfi] at h
        simp only [Option.map_some'] at h
        obtain ⟨h1, h2, h3⟩ := ih k hfi
        cases h
        refine ⟨by simpa using Nat.succ_lt_succ h1, by simpa using h2, ?_⟩
        intro j hj
        cases j with
        | zero => simpa using hb
        | succ j => simpa using h3 j (by omega)
    · rename_i hb
      simp only [Option.some.injEq] at h
      cases h
      refine ⟨by simp, ?_, by omega⟩
      cases b with
      | false => rfl
      | true => exact absurd rfl hb

/-! ### Small computation facts shared by several claims -/

theorem refresh_all_getD (s : AuctionState) (j : ℕ) (hj : j < s.clients_list.length) :
    (refresh_all s).getD j default =
      refresh s.num_clients (s.clients_list.getD j default) := by
  simp [refresh_all, List.getD_eq_getElem?_getD, List.getElem?_map,
    List.getElem?_eq_getElem hj]

theorem insert_single_client :
    (insert_new_client init_state 2 (fun _ => 5)).clients_list =
      [⟨1, [5], 0, coefficient 0 5 1⟩] := by
  have hdraw : draw_files 2 (fun _ => (5 : ℤ)) = [5] := rfl
  simp [insert_new_client, init_state, hdraw]

theorem getD_eq_getElem_of_lt (l : List α) (d : α) (j : ℕ) (hj : j < l.length) :
    l.getD j d = l[j] := by
  simp [List.getD_eq_getElem?_getD, List.getElem?_eq_getElem hj]

theorem map_getD [Inhabited α] (f : α → β) (l : List α) (j : ℕ)
    (hj : j < l.length) (d : β) :
    (l.map f).getD j d = f (l.getD j default) := by
  simp [List.getD_eq_getElem?_getD, List.getElem?_map, List.getElem?_eq_getElem hj]

theorem getD_set_ne (l : List α) (i j : ℕ) (a d : α) (hne : i ≠ j) :
    (l.set i a).getD j d = l.getD j d := by
  rw [List.getD_eq_getElem?_getD, List.getD_eq_getElem?_getD, List.getElem?_set_ne hne]

theorem refresh_all_length (s : AuctionState) :
    (refresh_all s).length = s.clients_list.length := by
  simp [refresh_all]

theorem refresh_all_map_id (s : AuctionState) :
    (refresh_all s).map Client.id = s.clients_list.map Client.id := by
  simp [refresh_all, refresh, Function.comp]

theorem sel_idx_of_lt (s : AuctionState) (hne : s.clients_list ≠ []) :
    sel_idx_of s < (refresh_all s).length := by
  have h1 : (refresh_all s).map Client.coeff ≠ [] := by
    simp [refresh_all_length, hne, refresh_all]
  have := select_idx_lt_length _ h1
  simpa [sel_idx_of] using this

/-! ### Claims -/

/-- C1: every queued client's coefficient is `(1/c)*t + log_{1/2}(v/c)`:
the tick refresh gives each client `t + 1` and recomputes its coefficient
from the new time, its first file and the shared `num_clients`; a single
client inserted with files `[5]` into the empty initial queue gets
coefficient `(1/1)*0 + log_{1/2}(5/1) = -log₂ 5`. -/
theorem C1_coefficient_formula (s : AuctionState) (i : ℕ)
    (hi : i < s.clients_list.length) :
    ((refresh_all s).getD i default).time = (s.clients_list.getD i default).time + 1 ∧
    ((refresh_all s).getD i default).coeff =
      coefficient ((s.clients_list.getD i default).time + 1)
        (s.clients_list.getD i default).files.headI s.num_clients ∧
    (insert_new_client init_state 2 (fun _ => 5)).clients_list =
      [⟨1, [5], 0, coefficient 0 5 1⟩] ∧
    coefficient 0 5 1 = -Real.logb 2 5 := by
  refine ⟨by rw [refresh_all_getD s i hi]; rfl,
    by rw [refresh_all_getD s i hi]; rfl, insert_single_client, ?_⟩
  have h5 : ((5 : ℤ) : ℝ) / ((1 : ℤ) : ℝ) = 5 := by norm_num
  rw [coefficient, h5, show (1 : ℝ) / 2 = 2⁻¹ from one_div 2, Real.log_inv,
    div_neg, Real.log_div_log]
  norm_num

theorem C1_coefficient_formula_witness :
    ((refresh_all (insert_new_client init_state 2 (fun _ => 5))).getD 0 default).coeff =
      coefficient
        (((insert_new_client init_state 2 (fun _ => 5)).clients_list.getD 0 default).time + 1)
        (((insert_new_client init_state 2 (fun _ => 5)).clients_list.getD 0 default).files.headI)
        (insert_new_client init_state 2 (fun _ => 5)).num_clients :=
  (C1_coefficient_formula _ 0 (by simp [insert_single_client])).2.1

/-- C10: at insertion the divisor of the new client's initial coefficient is
the incremented count: into a queue of `k` clients it is `k + 1`, not `k`. -/
theorem C10_insert_divisor (s : AuctionState) (n : ℕ) (sd : ℕ → ℤ)
    (hk : s.num_clients = (s.clients_list.length : ℤ)) :
    ((insert_new_client s n sd).clients_list.getLast?).map Client.coeff =
      some (coefficient 0 (((draw_files n sd).mergeSort (· ≤ ·)).headI)
        ((s.clients_list.length : ℤ) + 1)) := by
  simp [insert_new_client, ← hk]

theorem C10_insert_divisor_witness :
    ((insert_new_client init_state 2 (fun _ => 5)).clients_list.getLast?).map Client.coeff =
      some (coefficient 0 (((draw_files 2 (fun _ => 5)).mergeSort (· ≤ ·)).headI)
        ((init_state.clients_list.length : ℤ) + 1)) :=
  C10_insert_divisor init_state 2 (fun _ => 5) (by simp [init_state])

/-- C3 counterexample: the count draw `n = 2` is a legal result of
`random.randint(2, 11)`, yet the generated client holds exactly one file —
the comprehension `for _ in range(1, n)` runs `n - 1` times, so the claimed
lower bound of 2 files fails. -/
theorem C3_counterexample :
    (2 ≤ 2 ∧ 2 ≤ 11) ∧
    ¬ 2 ≤ ((insert_new_client init_state 2 (fun _ => 7)).clients_list.getD 0
        default).files.length := by
  refine ⟨⟨le_refl 2, by norm_num⟩, ?_⟩
  have hdraw : draw_files 2 (fun _ => (7 : ℤ)) = [7] := rfl
  simp [insert_new_client, init_state, hdraw]

/-- C3 amended: every newly generated client receives between 1 and 10
files (the count draw `n ∈ [2,11]` yields `n - 1` files), each file size is
in `[1, 1000]`, and the file list is sorted ascending before the client
enters the queue. -/
theorem C3_amended (s : AuctionState) (n : ℕ) (sd : ℕ → ℤ)
    (hn1 : 2 ≤ n) (hn2 : n ≤ 11) (hsd : ∀ k, 1 ≤ sd k ∧ sd k ≤ 1000) :
    ∃ cl : Client,
      (insert_new_client s n sd).clients_list = s.clients_list ++ [cl] ∧
      1 ≤ cl.files.length ∧ cl.files.length ≤ 10 ∧
      (∀ v ∈ cl.files, 1 ≤ v ∧ v ≤ 1000) ∧ cl.files.Sorted (· ≤ ·) := by
  refine ⟨_, rfl, ?_, ?_, ?_, ?_⟩
  · simp only [List.length_mergeSort, draw_files, List.length_map, List.length_range]
    omega
  · simp only [List.length_mergeSort, draw_files, List.length_map, List.length_range]
    omega
  · intro v hv
    simp only [List.mem_mergeSort, draw_files, List.mem_map, List.mem_range] at hv
    obtain ⟨k, _, hk⟩ := hv
    exact hk ▸ hsd k
  · exact List.sorted_mergeSort' _

theorem C3_amended_witness :
    ∃ cl : Client,
      (insert_new_client init_state 3 (fun _ => 5)).clients_list =
        init_state.clients_list ++ [cl] ∧
      1 ≤ cl.files.length ∧ cl.files.length ≤ 10 ∧
      (∀ v ∈ cl.files, 1 ≤ v ∧ v ≤ 1000) ∧ cl.files.Sorted (· ≤ ·) :=
  C3_amended init_state 3 (fun _ => 5) (by norm_num) (by norm_num)
    (fun _ => by norm_num)

/-- C8 counterexample: `queueSize = -1` and `smallestFile = -1` satisfy the
claim's premise `queueSize ≤ 0 ∨ smallestFile ≤ 0`, yet the computation
raises nothing: the ratio `(-1)/(-1) = 1` is positive, so `math.log`
succeeds and the value `0` is produced silently. -/
theorem C8_counterexample :
    ((-1 : ℤ) ≤ 0 ∧ (-1 : ℤ) ≤ 0) ∧
    compute_checked 0 (-1) (-1) = Except.ok 0 := by
  refine ⟨⟨by norm_num, by norm_num⟩, ?_⟩
  rw [compute_checked, if_neg (by norm_num), if_neg (by norm_num)]
  have : coefficient 0 (-1) (-1) = 0 := by
    rw [coefficient]
    norm_num
  rw [this]

/-- C8 amended: the computation fails fast (with `ZeroDivisionError` or a
`math` domain `ValueError`) whenever `queueSize = 0` or
`smallestFile * queueSize ≤ 0` — in particular whenever exactly one of the
two is nonpositive — but when both are negative the ratio is positive and a
value is produced silently; for `queueSize ≥ 1` and `smallestFile ≥ 1` it
always succeeds with the formula's value. -/
theorem C8_amended (t v c : ℤ) :
    ((c = 0 ∨ v * c ≤ 0) → ∃ e, compute_checked t v c = Except.error e) ∧
    (1 ≤ c → 1 ≤ v → compute_checked t v c = Except.ok (coefficient t v c)) := by
  constructor
  · intro h
    by_cases hc : c = 0
    · exact ⟨_, by rw [compute_checked, if_pos hc]⟩
    · rcases h with h | h
      · exact absurd h hc
      · exact ⟨_, by rw [compute_checked, if_neg hc, if_pos h]⟩
  · intro hc hv
    have h1 : ¬ c = 0 := by omega
    have h2 : ¬ v * c ≤ 0 := by nlinarith
    rw [compute_checked, if_neg h1, if_neg h2]

theorem C8_amended_witness :
    compute_checked 3 5 2 = Except.ok (coefficient 3 5 2) :=
  (C8_amended 3 5 2).2 (by norm_num) (by norm_num)

/-- C4: for a non-empty queue the selection returns the client at the first
index of the maximal coefficient; with ids increasing along the list (the
insertion discipline) a tie therefore goes to the smallest id still
present; and selection depends only on the stored coefficients and ids, so
repeated selection under unchanged coefficients returns the same client. -/
theorem C4_select_max (l : List Client) (hl : l ≠ [])
    (hid : l.Pairwise (fun a b => a.id < b.id)) :
    ∃ i, i < l.length ∧ select_max l = some (l.getD i default) ∧
      (∀ j, j < l.length → (l.getD j default).coeff ≤ (l.getD i default).coeff) ∧
      (∀ j, j < l.length → (l.getD j default).coeff = (l.getD i default).coeff →
        i ≤ j ∧ (l.getD i default).id ≤ (l.getD j default).id) ∧
      (∀ l' : List Client, l' ≠ [] →
        l'.map Client.coeff = l.map Client.coeff →
        l'.map Client.id = l.map Client.id →
        (select_max l').map Client.id = (select_max l).map Client.id) := by
  have hmapne : l.map Client.coeff ≠ [] := by simpa using hl
  have hsi0 : select_idx (l.map Client.coeff) < (l.map Client.coeff).length :=
    select_idx_lt_length _ hmapne
  have hsi : select_idx (l.map Client.coeff) < l.length := by simpa using hsi0
  refine ⟨select_idx (l.map Client.coeff), hsi, ?_, ?_, ?_, ?_⟩
  · rw [select_max, if_neg (by simpa using hl)]
  · intro j hj
    have h := getD_le_getD_select_idx (l.map Client.coeff) j (by simpa using hj) 0
    rwa [map_getD Client.coeff l j hj 0, map_getD Client.coeff l _ hsi 0] at h
  · intro j hj heq
    have hle : select_idx (l.map Client.coeff) ≤ j := by
      apply select_idx_le_of_getD_eq (l.map Client.coeff) j (by simpa using hj) 0
      rw [map_getD Client.coeff l j hj 0, map_getD Client.coeff l _ hsi 0]
      exact heq
    refine ⟨hle, ?_⟩
    rcases Nat.eq_or_lt_of_le hle with h | h
    · rw [h]
    · have hp := List.pairwise_iff_getElem.mp hid _ _ hsi hj h
      rw [getD_eq_getElem_of_lt l default _ hsi, getD_eq_getElem_of_lt l default _ hj]
      exact le_of_lt hp
  · intro l' hl' hc hids
    have hlen : l'.length = l.length := by
      have h := congrArg List.length hc
      simpa using h
    rw [select_max, select_max, if_neg (by simpa using hl'),
      if_neg (by simpa using hl), hc]
    have hsit : select_idx (l.map Client.coeff) < l'.length := by omega
    rw [Option.map_some', Option.map_some']
    congr 1
    rw [← map_getD Client.id l' _ hsit 0, ← map_getD Client.id l _ hsi 0, hids]

theorem C4_select_max_witness :
    ∃ i, i < ([⟨1, [5], 0, 0⟩] : List Client).length ∧
      select_max [⟨1, [5], 0, 0⟩] =
        some (([⟨1, [5], 0, 0⟩] : List Client).getD i default) ∧
      (∀ j, j < ([⟨1, [5], 0, 0⟩] : List Client).length →
        (([⟨1, [5], 0, 0⟩] : List Client).getD j default).coeff ≤
          (([⟨1, [5], 0, 0⟩] : List Client).getD i default).coeff) ∧
      (∀ j, j < ([⟨1, [5], 0, 0⟩] : List Client).length →
        (([⟨1, [5], 0, 0⟩] : List Client).getD j default).coeff =
          (([⟨1, [5], 0, 0⟩] : List Client).getD i default).coeff →
        i ≤ j ∧ (([⟨1, [5], 0, 0⟩] : List Client).getD i default).id ≤
          (([⟨1, [5], 0, 0⟩] : List Client).getD j default).id) ∧
      (∀ l' : List Client, l' ≠ [] →
        l'.map Client.coeff = ([⟨1, [5], 0, 0⟩] : List Client).map Client.coeff →
        l'.map Client.id = ([⟨1, [5], 0, 0⟩] : List Client).map Client.id →
        (select_max l').map Client.id =
          (select_max [⟨1, [5], 0, 0⟩]).map Client.id) :=
  C4_select_max [⟨1, [5], 0, 0⟩] (by simp) (by simp)

/-- C5: in one tick at most one host assignment occurs: either nothing is
dispatched and no busy flag changes, or exactly one dispatch happens, aimed
at the first host whose busy flag is `False` in ascending host order; that
host's flag becomes busy and every other host keeps its flag.  Moreover,
whenever the queue is non-empty and an idle host exists, the dispatch does
happen, so with two idle hosts and one eligible client exactly one host
becomes busy that tick and the other stays idle. -/
theorem C5_one_assignment (s : AuctionState) :
    (((update_tick s).2 = none ∧ (update_tick s).1.status_list = s.status_list) ∨
    (∃ hi cid, find_idle s.status_list = some hi ∧
      (update_tick s).2 = some (hi, cid) ∧
      (update_tick s).1.status_list = s.status_list.set hi true ∧
      hi < s.status_list.length ∧ s.status_list.getD hi true = false ∧
      (∀ j, j < hi → s.status_list.getD j false = true) ∧
      (∀ j, j < s.status_list.length → j ≠ hi →
        (update_tick s).1.status_list.getD j false = s.status_list.getD j false))) ∧
    (∀ hi, s.clients_list ≠ [] → find_idle s.status_list = some hi →
      ∃ cid, (update_tick s).2 = some (hi, cid)) := by
  constructor
  · rw [update_tick]
    split
    · exact Or.inl ⟨rfl, rfl⟩
    · split
      · exact Or.inl ⟨rfl, rfl⟩
      · rename_i hi hfi
        obtain ⟨h1, h2, h3⟩ := find_idle_spec s.status_list hi hfi
        split
        · refine Or.inr ⟨hi, _, hfi, rfl, rfl, h1, h2, h3, ?_⟩
          intro j hj hne
          exact getD_set_ne s.status_list hi j true false (fun h => hne h.symm)
        · refine Or.inr ⟨hi, _, hfi, rfl, rfl, h1, h2, h3, ?_⟩
          intro j hj hne
          exact getD_set_ne s.status_list hi j true false (fun h => hne h.symm)
  · intro hi hne hfi
    rw [update_tick, if_neg (by simp [refresh_all, hne])]
    split
    · rename_i hnone
      rw [hnone] at hfi
      simp at hfi
    · rename_i hi2 hfi2
      rw [hfi2] at hfi
      simp only [Option.some.injEq] at hfi
      subst hfi
      split
      · exact ⟨_, rfl⟩
      · exact ⟨_, rfl⟩

theorem C5_one_assignment_witness :
    ∃ cid, (update_tick (insert_new_client init_state 2 (fun _ => 5))).2 =
      some (0, cid) :=
  (C5_one_assignment (insert_new_client init_state 2 (fun _ => 5))).2 0
    (by simp [insert_single_client]) rfl

/-- C9: after an insertion and after a tick (consumption with possible
removal), `num_clients` equals the number of clients actually held in
`clients_list`; the refresh divisor is that same `num_clients`. -/
theorem C9_count_invariant (s : AuctionState)
    (h : s.num_clients = (s.clients_list.length : ℤ)) (n : ℕ) (sd : ℕ → ℤ) :
    (insert_new_client s n sd).num_clients =
      ((insert_new_client s n sd).clients_list.length : ℤ) ∧
    (update_tick s).1.num_clients = ((update_tick s).1.clients_list.length : ℤ) := by
  constructor
  · simp [insert_new_client, h]
  · rw [update_tick]
    split
    · simpa [refresh_all_length] using h
    · rename_i hemp
      split
      · simpa [refresh_all_length] using h
      · rename_i hi hfi
        have hne : s.clients_list ≠ [] := by
          intro hh
          exact hemp (by simp [refresh_all, hh])
        have hsi := sel_idx_of_lt s hne
        have hclen : (consumed_list s).length = (refresh_all s).length := by
          simp [consumed_list]
        split
        · have herase : ((consumed_list s).eraseIdx (sel_idx_of s)).length =
              (consumed_list s).length - 1 :=
            List.length_eraseIdx_of_lt (by omega)
          have hlen2 := refresh_all_length s
          simp only [herase, hclen, hlen2]
          omega
        · simp only [hclen, refresh_all_length]
          exact h

theorem getD_set_self (l : List α) (i : ℕ) (hi : i < l.length) (a d : α) :
    (l.set i a).getD i d = a := by
  rw [List.getD_eq_getElem?_getD, List.getElem?_set_self hi]
  rfl

theorem consumed_list_length (s : AuctionState) :
    (consumed_list s).length = (refresh_all s).length := by
  simp [consumed_list]

theorem consumed_list_getD_sel (s : AuctionState)
    (hsi : sel_idx_of s < (refresh_all s).length) :
    (consumed_list s).getD (sel_idx_of s) default =
      consume_first ((refresh_all s).getD (sel_idx_of s) default) := by
  rw [consumed_list, getD_set_self _ _ hsi]

theorem consumed_list_getD_ne (s : AuctionState) (j : ℕ)
    (hne : j ≠ sel_idx_of s) :
    (consumed_list s).getD j default = (refresh_all s).getD j default := by
  rw [consumed_list]
  exact getD_set_ne _ _ _ _ _ (fun h => hne h.symm)

theorem sorted_tail_of_sorted (l : List ℤ) (h : l.Sorted (· ≤ ·)) :
    l.tail.Sorted (· ≤ ·) := by
  cases l with
  | nil => simp
  | cons x xs => exact (List.pairwise_cons.mp h).2

/-- C7: every queued client's file list stays sorted ascending: insertion
sorts it, the tick's consumption removes only the head — which is a lower
bound of the remaining files — so sortedness persists without re-sorting. -/
theorem C7_sorted_invariant (s : AuctionState)
    (hs : ∀ cl ∈ s.clients_list, cl.files.Sorted (· ≤ ·)) (n : ℕ) (sd : ℕ → ℤ) :
    (∀ cl ∈ (insert_new_client s n sd).clients_list, cl.files.Sorted (· ≤ ·)) ∧
    (∀ cl ∈ (update_tick s).1.clients_list, cl.files.Sorted (· ≤ ·)) ∧
    (∀ cl : Client, cl.files.Sorted (· ≤ ·) →
      ∀ v ∈ (consume_first cl).files, cl.files.headI ≤ v) := by
  have hrefresh : ∀ cl ∈ refresh_all s, cl.files.Sorted (· ≤ ·) := by
    intro cl hcl
    simp only [refresh_all, List.mem_map] at hcl
    obtain ⟨x, hx, rfl⟩ := hcl
    exact hs x hx
  refine ⟨?_, ?_, ?_⟩
  · intro cl hcl
    rw [insert_new_client] at hcl
    simp only [List.mem_append, List.mem_singleton] at hcl
    rcases hcl with h | h
    · exact hs cl h
    · rw [h]
      exact List.sorted_mergeSort' _
  · rw [update_tick]
    split
    · exact hrefresh
    · rename_i hemp
      split
      · exact hrefresh
      · rename_i hi hfi
        have hne : s.clients_list ≠ [] := by
          intro hh
          exact hemp (by simp [refresh_all, hh])
        have hsi := sel_idx_of_lt s hne
        have hcons : ∀ cl ∈ consumed_list s, cl.files.Sorted (· ≤ ·) := by
          intro cl hcl
          rcases List.mem_or_eq_of_mem_set hcl with h | h
          · exact hrefresh cl h
          · rw [h, consume_first]
            exact sorted_tail_of_sorted _
              (hrefresh _ (getD_mem_of_lt _ _ hsi default))
        split
        · intro cl hcl
          exact hcons cl (List.eraseIdx_subset _ _ hcl)
        · exact hcons
  · intro cl hsort v hv
    cases hf : cl.files with
    | nil =>
      rw [consume_first, hf] at hv
      simp at hv
    | cons x xs =>
      rw [consume_first, hf] at hv
      simp only [List.tail_cons] at hv
      simp only [List.headI_cons]
      exact (List.pairwise_cons.mp (hf ▸ hsort)).1 v hv

theorem C7_sorted_invariant_witness :
    (∀ cl ∈ (insert_new_client init_state 2 (fun _ => 5)).clients_list,
      cl.files.Sorted (· ≤ ·)) ∧
    (∀ cl ∈ (update_tick init_state).1.clients_list, cl.files.Sorted (· ≤ ·)) ∧
    (∀ cl : Client, cl.files.Sorted (· ≤ ·) →
      ∀ v ∈ (consume_first cl).files, cl.files.headI ≤ v) :=
  C7_sorted_invariant init_state (by simp [init_state]) 2 (fun _ => 5)

theorem refresh_all_files_ne (s : AuctionState)
    (hfe : ∀ cl ∈ s.clients_list, cl.files ≠ []) :
    ∀ cl ∈ refresh_all s, cl.files ≠ [] := by
  intro cl hcl
  simp only [refresh_all, List.mem_map] at hcl
  obtain ⟨x, hx, rfl⟩ := hcl
  exact hfe x hx

theorem nodup_getD_inj (l : List ℤ) (h : l.Nodup) (i j : ℕ) (hi : i < l.length)
    (hj : j < l.length) (hij : l.getD i 0 = l.getD j 0) : i = j := by
  rw [getD_eq_getElem_of_lt l 0 i hi, getD_eq_getElem_of_lt l 0 j hj] at hij
  exact (@List.Nodup.getElem_inj_iff _ _ h i hi j hj).mp hij

/-- C6: a client is removed from the queue exactly on the tick in which its
last file is consumed: when a dispatch happens, the selected client stays
in the queue iff it still had at least two files, every non-selected
client always survives, and after any tick no client with an empty file
list exists in the queue. -/
theorem C6_removal_iff_empty (s : AuctionState)
    (hfe : ∀ cl ∈ s.clients_list, cl.files ≠ [])
    (hnd : (s.clients_list.map Client.id).Nodup) :
    (∀ cl ∈ (update_tick s).1.clients_list, cl.files ≠ []) ∧
    (∀ hi, find_idle s.status_list = some hi → s.clients_list ≠ [] →
      ((((refresh_all s).getD (sel_idx_of s) default).id ∈
          (update_tick s).1.clients_list.map Client.id ↔
        2 ≤ ((refresh_all s).getD (sel_idx_of s) default).files.length) ∧
      ∀ j, j < (refresh_all s).length → j ≠ sel_idx_of s →
        ((refresh_all s).getD j default).id ∈
          (update_tick s).1.clients_list.map Client.id)) := by
  have hrfe := refresh_all_files_ne s hfe
  have hnd2 : ((refresh_all s).map Client.id).Nodup := by
    rw [refresh_all_map_id]
    exact hnd
  constructor
  · rw [update_tick]
    split
    · exact hrfe
    · rename_i hemp
      split
      · exact hrfe
      · rename_i hi hfi
        have hne : s.clients_list ≠ [] := fun hh => hemp (by simp [refresh_all, hh])
        have hsi := sel_idx_of_lt s hne
        split
        · rename_i hlast
          intro cl hcl
          rw [List.mem_eraseIdx_iff_getElem?] at hcl
          obtain ⟨i, hine, hgi⟩ := hcl
          rw [consumed_list, List.getElem?_set_ne (fun hh => hine hh.symm)] at hgi
          have hilen : i < (refresh_all s).length := by
            by_contra hge
            rw [List.getElem?_eq_none (by omega)] at hgi
            exact Option.noConfusion hgi
          have hval : (refresh_all s).getD i default = cl := by
            rw [List.getD_eq_getElem?_getD, hgi]
            rfl
          rw [← hval]
          exact hrfe _ (getD_mem_of_lt _ _ hilen default)
        · rename_i hlast
          intro cl hcl
          rcases List.mem_or_eq_of_mem_set hcl with h | h
          · exact hrfe cl h
          · rw [h]
            rw [consumed_list_getD_sel s hsi] at hlast
            intro hnil
            exact hlast (by rw [hnil]; rfl)
  · intro hi1 hfi1 hne
    have hsi := sel_idx_of_lt s hne
    have hselfe : ((refresh_all s).getD (sel_idx_of s) default).files ≠ [] :=
      hrfe _ (getD_mem_of_lt _ _ hsi default)
    rw [update_tick, if_neg (by simp [refresh_all, hne])]
    split
    · rename_i hnone
      rw [hnone] at hfi1
      simp at hfi1
    · rename_i hi2 hfi2
      split
      · rename_i hlast
        rw [consumed_list_getD_sel s hsi, consume_first] at hlast
        simp only [List.isEmpty_eq_true] at hlast
        have htl := List.length_tail (((refresh_all s).getD (sel_idx_of s) default).files)
        have hpos : 0 < ((refresh_all s).getD (sel_idx_of s) default).files.length :=
          List.length_pos.mpr hselfe
        have hlen1 : ((refresh_all s).getD (sel_idx_of s) default).files.length = 1 := by
          rw [hlast] at htl
          simp only [List.length_nil] at htl
          omega
        refine ⟨iff_of_false ?_ (by omega), ?_⟩
        · intro hmem
          rw [List.mem_map] at hmem
          obtain ⟨cl, hcl, hid⟩ := hmem
          rw [List.mem_eraseIdx_iff_getElem?] at hcl
          obtain ⟨i, hine, hgi⟩ := hcl
          rw [consumed_list, List.getElem?_set_ne (fun hh => hine hh.symm)] at hgi
          have hilen : i < (refresh_all s).length := by
            by_contra hge
            rw [List.getElem?_eq_none (by omega)] at hgi
            exact Option.noConfusion hgi
          have hval : (refresh_all s).getD i default = cl := by
            rw [List.getD_eq_getElem?_getD, hgi]
            rfl
          have hmap_i : ((refresh_all s).map Client.id).getD i 0 =
              ((refresh_all s).map Client.id).getD (sel_idx_of s) 0 := by
            rw [map_getD Client.id _ i hilen 0, map_getD Client.id _ _ hsi 0, hval, hid]
          exact hine (nodup_getD_inj _ hnd2 i (sel_idx_of s) (by simpa using hilen)
            (by simpa using hsi) hmap_i)
        · intro j hj hjne
          rw [List.mem_map]
          refine ⟨(refresh_all s).getD j default, ?_, rfl⟩
          rw [List.mem_eraseIdx_iff_getElem?]
          refine ⟨j, hjne, ?_⟩
          rw [consumed_list, List.getElem?_set_ne (fun hh => hjne hh.symm),
            List.getElem?_eq_getElem hj, getD_eq_getElem_of_lt _ _ _ hj]
      · rename_i hlast
        rw [consumed_list_getD_sel s hsi, consume_first] at hlast
        simp only [List.isEmpty_eq_true] at hlast
        have h1 : 0 < (((refresh_all s).getD (sel_idx_of s) default).files.tail).length :=
          List.length_pos.mpr hlast
        have h2 := List.length_tail (((refresh_all s).getD (sel_idx_of s) default).files)
        have hlen2 : 2 ≤ ((refresh_all s).getD (sel_idx_of s) default).files.length := by
          omega
        refine ⟨iff_of_true ?_ hlen2, ?_⟩
        · rw [List.mem_map]
          refine ⟨consume_first ((refresh_all s).getD (sel_idx_of s) default), ?_, rfl⟩
          rw [← consumed_list_getD_sel s hsi]
          exact getD_mem_of_lt _ _ (by rw [consumed_list_length]; exact hsi) default
        · intro j hj hjne
          rw [List.mem_map]
          refine ⟨(refresh_all s).getD j default, ?_, rfl⟩
          rw [← consumed_list_getD_ne s j hjne]
          exact getD_mem_of_lt _ _ (by rw [consumed_list_length]; omega) default

theorem C6_removal_iff_empty_witness :
    (∀ cl ∈ (update_tick init_state).1.clients_list, cl.files ≠ []) ∧
    (∀ hi, find_idle init_state.status_list = some hi →
      init_state.clients_list ≠ [] →
      ((((refresh_all init_state).getD (sel_idx_of init_state) default).id ∈
          (update_tick init_state).1.clients_list.map Client.id ↔
        2 ≤ ((refresh_all init_state).getD (sel_idx_of init_state)
          default).files.length) ∧
      ∀ j, j < (refresh_all init_state).length → j ≠ sel_idx_of init_state →
        ((refresh_all init_state).getD j default).id ∈
          (update_tick init_state).1.clients_list.map Client.id)) :=
  C6_removal_iff_empty init_state (by simp [init_state]) (by simp [init_state])

theorem C9_count_invariant_witness :
    (insert_new_client init_state 2 (fun _ => 5)).num_clients =
      ((insert_new_client init_state 2 (fun _ => 5)).clients_list.length : ℤ) ∧
    (update_tick init_state).1.num_clients =
      ((update_tick init_state).1.clients_list.length : ℤ) :=
  C9_count_invariant init_state (by simp [init_state]) 2 (fun _ => 5)

end Auction
